import Mathlib

/-!
Shallow embedding of `src/parsing.ts` (md-lite): a single-pass recursive-descent
markdown parser producing a tree of `MarkdownNode`s.

Modelling conventions:
- The TypeScript parser owns `chars : string[]` (code points) and a mutable
  `index`.  Every cursor operation in the source reads only forward from the
  current index (`lookAhead`, `matches`, `match`, `current`, `advance`), and
  `seek` is used solely to restore a previously saved position.  The embedding
  therefore represents the cursor state as the remaining suffix `r : List Char`
  of the input; "save the index and later seek back" becomes "remember the
  suffix and reuse it".
- The mutually recursive pair `parseNext` (the main loop) / `parseCurrent`
  (the inline dispatcher) is total only because every loop iteration consumes
  input; the embedding makes this explicit with a `fuel : Nat` argument and an
  out-of-fuel result (`none` for the loop, `DispatchResult.oof` for the
  dispatcher).  `parse` runs the loop with fuel `2 * length + 1`, and the
  totality theorem (claim C1) proves this fuel is always sufficient, which is
  exactly the termination argument of the source.
- `MismatchError` (thrown by `match`) and an explicit `null` from
  `parseCurrent` are both caught at the single dispatch site in `parseNext`
  and treated identically (restore position, demote one character to literal
  text); the embedding merges them into `DispatchResult.fail`.
- `this.current` is `undefined` past the end of input; on every reachable
  path the source only reads it when in bounds, and the embedding uses a
  default character (`headD '\x00'`) in the one place the guard is implicit.
-/

/-- Output tree of the parser, mirroring the `MarkdownNode` variants used by
`parsing.ts`: `fragment`/`paragraph` hold child lists, `italic`/`bold`/
`strike`/`link` hold a single nested subtree, `text`/`code`/`image` are
leaves. -/
inductive MarkdownNode where
  | fragment (children : List MarkdownNode)
  | paragraph (children : List MarkdownNode)
  | text (content : String)
  | italic (children : MarkdownNode)
  | bold (children : MarkdownNode)
  | strike (children : MarkdownNode)
  | code (content : String)
  | link (href : String) (children : MarkdownNode)
  | image (src : String) (alt : String)

/-- the `NEWLINE` constant of `MarkdownParser`. -/
def NEWLINE : List String := ["\r\n", "\r", "\n"]

/-- the `NEW_PARAGRAPH` constant: all nine pairwise concatenations of newline
styles (`NEWLINE.flatMap(prefix => NEWLINE.map(suffix => prefix + suffix))`). -/
def NEW_PARAGRAPH : List String :=
  (NEWLINE.map (fun p => NEWLINE.map (fun s => p ++ s))).flatten

/-- Cursor test `this.lookAhead(s.length) === s`: the next `s.length`
characters of the remaining input literally equal `s`.  (Shorter-at-end
lookahead compares unequal to any longer candidate, as in the source.) -/
def matchesStr (r : List Char) (s : String) : Bool :=
  r.take s.length == s.data

/-- Cursor test `this.matches(...candidates)`. -/
def matchesAny (r : List Char) (cands : List String) : Bool :=
  cands.any (matchesStr r)

/-- Cursor operation `this.match(...candidates)`: consume the first candidate
whose literal text matches at the current position; `none` models the thrown
`MismatchError` (on which the source has not advanced). -/
def matchTok (r : List Char) (cands : List String) : Option (List Char) :=
  match cands with
  | [] => none
  | s :: rest => if matchesStr r s then some (r.drop s.length) else matchTok r rest

/-- the `parseText(end)` scanner: consume literal characters until the end of
input, or until `end` (when non-empty) or any newline sequence matches;
a backslash followed by any character consumes both and appends the second
verbatim, before any stop-condition check.  Returns the scanned text and the
remaining input (the terminator is never consumed). -/
def parseText (endS : String) (r : List Char) (acc : String) : String × List Char :=
  match r with
  | [] => (acc, [])
  | '\\' :: c :: rest => parseText endS rest (acc.push c)
  | c :: rest =>
    if endS = "" ∨ matchesStr r endS ∨ matchesAny r NEWLINE then (acc, r)
    else parseText endS rest (acc.push c)

/-- the `while (NEWLINE.includes(this.current)) this.advance()` loop of the
blank-line branch: drop all consecutive newline characters.  (Past the end of
input `this.current` is `undefined`, never a newline, so the loop stops.) -/
def skipNewlines (r : List Char) : List Char :=
  match r with
  | [] => []
  | c :: rest => if NEWLINE.contains c.toString then skipNewlines rest else c :: rest

/-- Append a node the way `parseNext` appends into its root: into the last
child if that child is a paragraph, else directly at top level. -/
def appendChild (children : List MarkdownNode) (n : MarkdownNode) : List MarkdownNode :=
  match children.getLast? with
  | some (.paragraph ps) => children.dropLast ++ [.paragraph (ps ++ [n])]
  | _ => children ++ [n]

/-- Flush a pending-text buffer (`if (text !== '') parent.children.push({type:
'text', content: text})` with the parent chosen as in `appendChild`). -/
def flushText (children : List MarkdownNode) (text : String) : List MarkdownNode :=
  if text = "" then children else appendChild children (.text text)

/-- Success branch of the dispatch step: the source picks the parent once
(last child if a paragraph, else the root), pushes any pending text into it,
then pushes the produced node into the same parent.  Pushing the text first
leaves the chosen parent as the last child, so two `appendChild` steps agree
with the source. -/
def appendParsed (children : List MarkdownNode) (text : String) (n : MarkdownNode) :
    List MarkdownNode :=
  appendChild (flushText children text) n

/-- Paragraph promotion (the blank-line branch body, reached only when
`text !== '' || root.children.length > 0`): if the last child is not a
paragraph, wrap all current children into one paragraph; push pending text
into that paragraph; then append a fresh empty paragraph. -/
def promote (children : List MarkdownNode) (text : String) : List MarkdownNode :=
  let wrapped :=
    match children.getLast? with
    | some (.paragraph ps) =>
      if text = "" then children
      else children.dropLast ++ [.paragraph (ps ++ [.text text])]
    | _ =>
      if text = "" then [.paragraph children]
      else [.paragraph (children ++ [.text text])]
  wrapped ++ [.paragraph []]

/-- Epilogue of `parseNext` after its loop: flush remaining pending text,
remove a trailing empty paragraph, and collapse a single-child fragment to
its child. -/
def finishParse (children : List MarkdownNode) (text : String) : MarkdownNode :=
  let ch := flushText children text
  let ch2 :=
    match ch.getLast? with
    | some (.paragraph []) => ch.dropLast
    | _ => ch
  match ch2 with
  | [n] => n
  | _ => .fragment ch2

/-- Result of one inline-dispatch attempt (`parseCurrent` wrapped in
`try/catch` at its call site): `fail` covers both a thrown `MismatchError`
and an explicit `null` ("no match"), which the caller treats identically;
`oof` is fuel exhaustion of the embedding. -/
inductive DispatchResult where
  | oof : DispatchResult
  | fail : DispatchResult
  | ok (node : MarkdownNode) (rest : List Char) : DispatchResult

mutual

/-- the loop of `parseNext(end)`: `r` is the remaining input, `children` the
root fragment's accumulated children, `text` the pending-text buffer.
Returns the node built by the epilogue together with the remaining input,
or `none` when out of fuel. -/
def parseNextLoop (endS : String) (fuel : Nat) (r : List Char)
    (children : List MarkdownNode) (text : String) :
    Option (MarkdownNode × List Char) :=
  match fuel with
  | 0 => none
  | fuel + 1 =>
    match r with
    | [] => some (finishParse children text, r)
    | _ :: _ =>
      let pt := parseText "" r ""
      if pt.1 ≠ "" then
        parseNextLoop endS fuel pt.2 children (text ++ pt.1)
      else if endS ≠ "" ∧ (matchesStr pt.2 endS ∨ matchesAny pt.2 NEWLINE) then
        some (finishParse children text, pt.2)
      else if matchesAny pt.2 NEW_PARAGRAPH then
        if text ≠ "" ∨ children.length > 0 then
          parseNextLoop endS fuel (skipNewlines pt.2) (promote children text) ""
        else
          parseNextLoop endS fuel (skipNewlines pt.2) children text
      else
        match parseCurrent fuel pt.2 with
        | .oof => none
        | .fail => parseNextLoop endS fuel pt.2.tail children (text.push (pt.2.headD '\x00'))
        | .ok node r₂ => parseNextLoop endS fuel r₂ (appendParsed children text node) ""

/-- `parseCurrent()`: the inline dispatcher, switching on the current
character (`this.lookAhead()`, which is `undefined` on empty remaining input,
hitting the default arm).  Each recursion into `parseNext` spends one unit of
fuel. -/
def parseCurrent (fuel : Nat) (r : List Char) : DispatchResult :=
  match r with
  | [] => .fail
  | c :: _ =>
    if c = '*' ∨ c = '_' then
      let delim := if matchesStr r "**" then "**" else c.toString
      match fuel with
      | 0 => .oof
      | fuel + 1 =>
        match parseNextLoop delim fuel (r.drop delim.length) [] "" with
        | none => .oof
        | some (node, r₁) =>
          match matchTok r₁ [delim] with
          | none => .fail
          | some r₂ => .ok (if delim.length = 1 then .italic node else .bold node) r₂
    else if c = '~' then
      match matchTok r ["~~"] with
      | none => .fail
      | some r₁ =>
        match fuel with
        | 0 => .oof
        | fuel + 1 =>
          match parseNextLoop "~~" fuel r₁ [] "" with
          | none => .oof
          | some (node, r₂) =>
            match matchTok r₂ ["~~"] with
            | none => .fail
            | some r₃ => .ok (.strike node) r₃
    else if c = '`' then
      if matchesStr r "```" then .fail
      else
        let delim := if matchesStr r "``" then "``" else "`"
        match matchTok r [delim] with
        | none => .fail
        | some r₁ =>
          let pt := parseText delim r₁ ""
          if matchesStr pt.2 "```" then .fail
          else
            match matchTok pt.2 [delim] with
            | none => .fail
            | some r₃ => .ok (.code pt.1.trim) r₃
    else if c = '!' then
      match matchTok r.tail ["["] with
      | none => .fail
      | some r₁ =>
        let alt := parseText "]" r₁ ""
        match matchTok alt.2 ["]("] with
        | none => .fail
        | some r₃ =>
          let src := parseText ")" r₃ ""
          match matchTok src.2 [")"] with
          | none => .fail
          | some r₅ => .ok (.image src.1 alt.1) r₅
    else if c = '[' then
      match fuel with
      | 0 => .oof
      | fuel + 1 =>
        match parseNextLoop "]" fuel r.tail [] "" with
        | none => .oof
        | some (label, r₁) =>
          match matchTok r₁ ["]("] with
          | none => .fail
          | some r₂ =>
            let href := parseText ")" r₂ ""
            match matchTok href.2 [")"] with
            | none => .fail
            | some r₄ => .ok (.link href.1 label) r₄
    else .fail

end

/-- the public entry point `parse(markdown)`: run the top-level loop (empty
terminator, empty root, empty pending text) over the input's code points.
Fuel `2 * length + 1` is proved sufficient for every input (claim C1). -/
def parse (input : String) : Option MarkdownNode :=
  (parseNextLoop "" (2 * input.length + 1) input.data [] "").map (fun p => p.1)

example : parse "" = some (.fragment []) := by rfl

/-! ### Basic lemmas about the scanner and cursor primitives -/

/-- the scanner never rewinds: the remaining input after `parseText` is at
most as long as before. -/
theorem parseText_rest_length (endS : String) (r : List Char) (acc : String) :
    (parseText endS r acc).2.length ≤ r.length := by
  induction r, acc using parseText.induct endS with
  | case1 acc => simp [parseText]
  | case2 acc c rest ih =>
    simp [parseText]
    omega
  | case3 acc c rest hne hcond => simp [parseText, hne, hcond]
  | case4 acc c rest hne hcond ih =>
    simp [parseText, hne, hcond]
    omega

/-- either `parseText` consumes nothing (and returns its buffer unchanged),
or it strictly shortens the remaining input. -/
theorem parseText_progress (endS : String) (r : List Char) (acc : String) :
    ((parseText endS r acc).1 = acc ∧ (parseText endS r acc).2 = r) ∨
    (parseText endS r acc).2.length < r.length := by
  induction r, acc using parseText.induct endS with
  | case1 acc => simp [parseText]
  | case2 acc c rest ih =>
    right
    have := parseText_rest_length endS rest (acc.push c)
    simp [parseText]
    omega
  | case3 acc c rest hne hcond => simp [parseText, hne, hcond]
  | case4 acc c rest hne hcond ih =>
    right
    have := parseText_rest_length endS rest (acc.push c)
    simp [parseText, hne, hcond]
    omega

/-- when the current character is not a backslash and the stop condition
holds, `parseText` stops without consuming. -/
theorem parseText_stop (endS : String) (c : Char) (rest : List Char) (acc : String)
    (hc : c ≠ '\\')
    (hcond : endS = "" ∨ matchesStr (c :: rest) endS = true ∨
      matchesAny (c :: rest) NEWLINE = true) :
    parseText endS (c :: rest) acc = (acc, c :: rest) := by
  rcases rest with _ | ⟨d, rest⟩ <;> simp [parseText, hc, hcond]

/-- a successful `matchesStr` exposes the matched text as a literal take. -/
theorem matchesStr_take (r : List Char) (s : String) (h : matchesStr r s = true) :
    r.take s.length = s.data := by
  simpa [matchesStr] using h

/-- length of a string is the length of its character list. -/
theorem string_length_data (s : String) : s.data.length = s.length := rfl

/-- a candidate can only match when the remaining input is at least as long. -/
theorem matchesStr_length_le (r : List Char) (s : String) (h : matchesStr r s = true) :
    s.length ≤ r.length := by
  have ht := congrArg List.length (matchesStr_take r s h)
  simp [List.length_take, string_length_data] at ht
  omega

/-- a non-empty candidate that matches pins down the head of the input. -/
theorem matchesStr_head (r : List Char) (s : String) (h : matchesStr r s = true)
    (hs : s ≠ "") : r.head? = s.data.head? := by
  have ht := matchesStr_take r s h
  have hd : s.data ≠ [] := by
    intro hnil
    apply hs
    cases s
    simp_all
  rcases hdata : s.data with _ | ⟨a, as⟩
  · exact absurd hdata hd
  · have hlen : s.length = as.length + 1 := by
      rw [← string_length_data, hdata]
      simp
    rcases r with _ | ⟨b, bs⟩
    · rw [hdata] at ht
      simp at ht
    · rw [hdata, hlen] at ht
      simp [List.take_succ_cons] at ht
      simp [ht.1]

/-- claim C9 (supporting characterization): `match` consumes exactly the
first matching candidate. -/
theorem matchTok_eq_find (r : List Char) (cands : List String) :
    matchTok r cands = (cands.find? (matchesStr r)).map (fun s => r.drop s.length) := by
  induction cands with
  | nil => rfl
  | cons s rest ih =>
    by_cases h : matchesStr r s = true
    · simp [matchTok, h, List.find?_cons_of_pos]
    · simp [matchTok, h, List.find?_cons_of_neg, ih]

/-- inversion for a successful `match`. -/
theorem matchTok_some (r : List Char) (cands : List String) (r' : List Char)
    (h : matchTok r cands = some r') :
    ∃ s ∈ cands, matchesStr r s = true ∧ r' = r.drop s.length := by
  rw [matchTok_eq_find] at h
  obtain ⟨s, hfind, hdrop⟩ := Option.map_eq_some'.mp h
  exact ⟨s, List.mem_of_find?_eq_some hfind, List.find?_some hfind, hdrop.symm⟩

/-- skipping newlines never lengthens the remaining input. -/
theorem skipNewlines_length (r : List Char) : (skipNewlines r).length ≤ r.length := by
  induction r with
  | nil => simp [skipNewlines]
  | cons c rest ih =>
    by_cases h : c.toString ∈ NEWLINE
    · simp [skipNewlines, h]
      omega
    · simp [skipNewlines, h]

/-- unfolding of `matches` over a candidate list. -/
theorem matchesAny_iff (r : List Char) (cands : List String) :
    matchesAny r cands = true ↔ ∃ s ∈ cands, matchesStr r s = true := by
  simp [matchesAny, List.any_eq_true]

/-- a blank-line match forces the input to start with a newline character. -/
theorem newParagraph_head (r : List Char) (h : matchesAny r NEW_PARAGRAPH = true) :
    ∃ rest, r = '\r' :: rest ∨ r = '\n' :: rest := by
  rw [matchesAny_iff] at h
  obtain ⟨s, hs, hm⟩ := h
  have hne : s ≠ "" := by
    simp [NEW_PARAGRAPH, NEWLINE] at hs
    rcases hs with rfl | rfl | rfl | rfl | rfl | rfl | rfl | rfl | rfl <;> decide
  have hh := matchesStr_head r s hm hne
  have hfirst : s.data.head? = some '\r' ∨ s.data.head? = some '\n' := by
    simp [NEW_PARAGRAPH, NEWLINE] at hs
    rcases hs with rfl | rfl | rfl | rfl | rfl | rfl | rfl | rfl | rfl <;> decide
  rcases r with _ | ⟨b, bs⟩
  · rcases hfirst with hf | hf <;> rw [hf] at hh <;> simp at hh
  · refine ⟨bs, ?_⟩
    rcases hfirst with hf | hf <;> rw [hf] at hh <;> simp at hh <;> simp [hh]

/-- a newline match forces the input to start with a newline character. -/
theorem newline_head (r : List Char) (h : matchesAny r NEWLINE = true) :
    ∃ rest, r = '\r' :: rest ∨ r = '\n' :: rest := by
  rw [matchesAny_iff] at h
  obtain ⟨s, hs, hm⟩ := h
  have hne : s ≠ "" := by
    simp [NEWLINE] at hs
    rcases hs with rfl | rfl | rfl <;> decide
  have hh := matchesStr_head r s hm hne
  have hfirst : s.data.head? = some '\r' ∨ s.data.head? = some '\n' := by
    simp [NEWLINE] at hs
    rcases hs with rfl | rfl | rfl <;> decide
  rcases r with _ | ⟨b, bs⟩
  · rcases hfirst with hf | hf <;> rw [hf] at hh <;> simp at hh
  · refine ⟨bs, ?_⟩
    rcases hfirst with hf | hf <;> rw [hf] at hh <;> simp at hh <;> simp [hh]

/-- a blank-line (two-newline) match implies a single-newline match, which is
why the terminator check of `parseNext` fires before paragraph promotion ever
can when a terminator is active. -/
theorem newParagraph_newline (r : List Char) (h : matchesAny r NEW_PARAGRAPH = true) :
    matchesAny r NEWLINE = true := by
  obtain ⟨rest, hr | hr⟩ := newParagraph_head r h <;> subst hr <;> rw [matchesAny_iff]
  · exact ⟨"\r", by decide, by simp [matchesStr, show ("\r").length = 1 from rfl]⟩
  · exact ⟨"\n", by decide, by simp [matchesStr, show ("\n").length = 1 from rfl]⟩

/-- after a blank-line match, skipping newlines strictly consumes input. -/
theorem skipNewlines_progress (r : List Char) (h : matchesAny r NEW_PARAGRAPH = true) :
    (skipNewlines r).length < r.length := by
  obtain ⟨rest, hr | hr⟩ := newParagraph_head r h <;> subst hr
  · have h1 : skipNewlines ('\r' :: rest) = skipNewlines rest := rfl
    have := skipNewlines_length rest
    rw [h1]
    simp
    omega
  · have h1 : skipNewlines ('\n' :: rest) = skipNewlines rest := rfl
    have := skipNewlines_length rest
    rw [h1]
    simp
    omega

/-! ### Inversion principles for one step of the parsing loop and of the
inline dispatcher -/

/-- case analysis for one successful step of the `parseNext` loop, mirroring
the source's branch order: escape scan, terminator break, blank line
(with/without paragraph promotion), dispatch failure, dispatch success. -/
theorem parseNextLoop_inv (endS : String) (f : Nat) (r : List Char)
    (ch : List MarkdownNode) (t : String) (n : MarkdownNode) (r' : List Char)
    (h : parseNextLoop endS (f + 1) r ch t = some (n, r')) :
    (r = [] ∧ n = finishParse ch t ∧ r' = r) ∨
    (r ≠ [] ∧ (parseText "" r "").1 ≠ "" ∧
      parseNextLoop endS f (parseText "" r "").2 ch (t ++ (parseText "" r "").1) = some (n, r')) ∨
    (r ≠ [] ∧ (parseText "" r "").1 = "" ∧
      (endS ≠ "" ∧ (matchesStr (parseText "" r "").2 endS = true ∨
        matchesAny (parseText "" r "").2 NEWLINE = true)) ∧
      n = finishParse ch t ∧ r' = (parseText "" r "").2) ∨
    (r ≠ [] ∧ (parseText "" r "").1 = "" ∧
      ¬(endS ≠ "" ∧ (matchesStr (parseText "" r "").2 endS = true ∨
        matchesAny (parseText "" r "").2 NEWLINE = true)) ∧
      matchesAny (parseText "" r "").2 NEW_PARAGRAPH = true ∧
      (((t ≠ "" ∨ ch.length > 0) ∧
         parseNextLoop endS f (skipNewlines (parseText "" r "").2) (promote ch t) "" = some (n, r')) ∨
       (¬(t ≠ "" ∨ ch.length > 0) ∧
         parseNextLoop endS f (skipNewlines (parseText "" r "").2) ch t = some (n, r')))) ∨
    (r ≠ [] ∧ (parseText "" r "").1 = "" ∧
      matchesAny (parseText "" r "").2 NEW_PARAGRAPH = false ∧
      parseCurrent f (parseText "" r "").2 = .fail ∧
      parseNextLoop endS f (parseText "" r "").2.tail ch
        (t.push ((parseText "" r "").2.headD '\x00')) = some (n, r')) ∨
    (r ≠ [] ∧ (parseText "" r "").1 = "" ∧
      matchesAny (parseText "" r "").2 NEW_PARAGRAPH = false ∧
      ∃ node r₂, parseCurrent f (parseText "" r "").2 = .ok node r₂ ∧
        parseNextLoop endS f r₂ (appendParsed ch t node) "" = some (n, r')) := by
  match r with
  | [] =>
    left
    simp [parseNextLoop] at h
    simp [h.1, h.2]
  | a :: l =>
    simp only [parseNextLoop] at h
    split at h
    · right; left
      exact ⟨by simp, by assumption, h⟩
    · rename_i hesc
      split at h
      · rename_i hbrk
        right; right; left
        simp only [Option.some.injEq, Prod.mk.injEq] at h
        exact ⟨by simp, by simpa using hesc, hbrk, h.1.symm, h.2.symm⟩
      · rename_i hbrk
        split at h
        · rename_i hnp
          right; right; right; left
          refine ⟨by simp, by simpa using hesc, hbrk, hnp, ?_⟩
          split at h
          · rename_i hcond
            exact Or.inl ⟨hcond, h⟩
          · rename_i hcond
            exact Or.inr ⟨hcond, h⟩
        · rename_i hnp
          split at h
          · simp at h
          · rename_i hfail
            right; right; right; right; left
            exact ⟨by simp, by simpa using hesc, by simpa using hnp, hfail, h⟩
          · rename_i node r₂ hok
            right; right; right; right; right
            exact ⟨by simp, by simpa using hesc, by simpa using hnp, node, r₂, hok, h⟩

theorem parseCurrent_ok_inv (fuel : Nat) (r : List Char) (n : MarkdownNode) (r' : List Char)
    (h : parseCurrent fuel r = .ok n r') :
    (∃ c cs f delim node r₁, r = c :: cs ∧ (c = '*' ∨ c = '_') ∧ fuel = f + 1 ∧
      delim = (if matchesStr r "**" then "**" else c.toString) ∧
      parseNextLoop delim f (r.drop delim.length) [] "" = some (node, r₁) ∧
      matchTok r₁ [delim] = some r' ∧
      n = (if delim.length = 1 then .italic node else .bold node)) ∨
    (∃ cs f node r₁ r₂, r = '~' :: cs ∧ fuel = f + 1 ∧
      matchTok r ["~~"] = some r₁ ∧
      parseNextLoop "~~" f r₁ [] "" = some (node, r₂) ∧
      matchTok r₂ ["~~"] = some r' ∧ n = .strike node) ∨
    (∃ cs delim r₁, r = '`' :: cs ∧ matchesStr r "```" = false ∧
      delim = (if matchesStr r "``" then "``" else "`") ∧
      matchTok r [delim] = some r₁ ∧
      matchesStr (parseText delim r₁ "").2 "```" = false ∧
      matchTok (parseText delim r₁ "").2 [delim] = some r' ∧
      n = .code (parseText delim r₁ "").1.trim) ∨
    (∃ cs r₁ r₃, r = '!' :: cs ∧
      matchTok r.tail ["["] = some r₁ ∧
      matchTok (parseText "]" r₁ "").2 ["]("] = some r₃ ∧
      matchTok (parseText ")" r₃ "").2 [")"] = some r' ∧
      n = .image (parseText ")" r₃ "").1 (parseText "]" r₁ "").1) ∨
    (∃ cs f label r₁ r₂, r = '[' :: cs ∧ fuel = f + 1 ∧
      parseNextLoop "]" f r.tail [] "" = some (label, r₁) ∧
      matchTok r₁ ["]("] = some r₂ ∧
      matchTok (parseText ")" r₂ "").2 [")"] = some r' ∧
      n = .link (parseText ")" r₂ "").1 label) := by
  match r with
  | [] => simp [parseCurrent.eq_def] at h
  | c :: cs =>
    simp only [parseCurrent.eq_def] at h
    split at h
    · rename_i h1
      left
      split at h
      · simp at h
      · rename_i f
        split at h
        · simp at h
        · rename_i node r₁ hloop
          split at h
          · simp at h
          · rename_i r₂ hmt
            simp only [DispatchResult.ok.injEq] at h
            exact ⟨c, cs, f, _, node, r₁, rfl, h1, rfl, rfl, hloop, h.2 ▸ hmt, h.1.symm⟩
    · rename_i h1
      split at h
      · rename_i h2
        subst h2
        right; left
        split at h
        · simp at h
        · rename_i r₁ hmt
          split at h
          · simp at h
          · rename_i f
            split at h
            · simp at h
            · rename_i node r₂ hloop
              split at h
              · simp at h
              · rename_i r₃ hmt2
                simp only [DispatchResult.ok.injEq] at h
                exact ⟨cs, f, node, r₁, r₂, rfl, rfl, hmt, hloop, h.2 ▸ hmt2, h.1.symm⟩
      · rename_i h2
        split at h
        · rename_i h3
          subst h3
          right; right; left
          split at h
          · simp at h
          · rename_i h4
            by_cases hdd : matchesStr ('`' :: cs) "``" = true
            · rw [if_pos hdd] at h
              split at h
              · simp at h
              · rename_i r₁ hmt
                split at h
                · simp at h
                · rename_i h5
                  split at h
                  · simp at h
                  · rename_i r₃ hmt2
                    simp only [DispatchResult.ok.injEq] at h
                    exact ⟨cs, "``", r₁, rfl, by simpa using h4, (if_pos hdd).symm, hmt,
                      by simpa using h5, h.2 ▸ hmt2, h.1.symm⟩
            · rw [if_neg hdd] at h
              split at h
              · simp at h
              · rename_i r₁ hmt
                split at h
                · simp at h
                · rename_i h5
                  split at h
                  · simp at h
                  · rename_i r₃ hmt2
                    simp only [DispatchResult.ok.injEq] at h
                    exact ⟨cs, "`", r₁, rfl, by simpa using h4, (if_neg hdd).symm, hmt,
                      by simpa using h5, h.2 ▸ hmt2, h.1.symm⟩
        · rename_i h3
          split at h
          · rename_i h4
            subst h4
            right; right; right; left
            split at h
            · simp at h
            · rename_i r₁ hmt
              split at h
              · simp at h
              · rename_i r₃ hmt2
                split at h
                · simp at h
                · rename_i r₅ hmt3
                  simp only [DispatchResult.ok.injEq] at h
                  exact ⟨cs, r₁, r₃, rfl, hmt, hmt2, h.2 ▸ hmt3, h.1.symm⟩
          · rename_i h4
            split at h
            · rename_i h5
              subst h5
              right; right; right; right
              split at h
              · simp at h
              · rename_i f
                split at h
                · simp at h
                · rename_i label r₁ hloop
                  split at h
                  · simp at h
                  · rename_i r₂ hmt
                    split at h
                    · simp at h
                    · rename_i r₄ hmt2
                      simp only [DispatchResult.ok.injEq] at h
                      exact ⟨cs, f, label, r₁, r₂, rfl, rfl, hloop, hmt, h.2 ▸ hmt2, h.1.symm⟩
            · simp at h

theorem char_toString_length (c : Char) : c.toString.length = 1 := rfl

theorem matchTok_length_le (r : List Char) (cands : List String) (r' : List Char)
    (h : matchTok r cands = some r') : r'.length ≤ r.length := by
  obtain ⟨s, _, _, rfl⟩ := matchTok_some r cands r' h
  simp [List.length_drop]

theorem parseCurrent_ok_length (fuel : Nat) (r : List Char) (n : MarkdownNode) (r' : List Char)
    (hloop : ∀ f endS r₀ ch t m r₁, f < fuel →
      parseNextLoop endS f r₀ ch t = some (m, r₁) → r₁.length ≤ r₀.length)
    (h : parseCurrent fuel r = .ok n r') : r'.length < r.length := by
  rcases parseCurrent_ok_inv fuel r n r' h with
    ⟨c, cs, f, delim, node, r₁, hr, hc, hf, hd, hl, hm, hn⟩ |
    ⟨cs, f, node, r₁, r₂, hr, hf, hm1, hl, hm2, hn⟩ |
    ⟨cs, delim, r₁, hr, h3, hd, hm1, h5, hm2, hn⟩ |
    ⟨cs, r₁, r₃, hr, hm1, hm2, hm3, hn⟩ |
    ⟨cs, f, label, r₁, r₂, hr, hf, hl, hm1, hm2, hn⟩
  · subst hr hf
    have hdlen : 1 ≤ delim.length := by
      rw [hd]
      split
      · decide
      · simp [char_toString_length]
    have h1 := hloop f delim _ [] "" node r₁ (by omega) hl
    have h2 := matchTok_length_le r₁ [delim] r' hm
    have h3 : (List.drop delim.length (c :: cs)).length = (c :: cs).length - delim.length :=
      List.length_drop _ _
    simp only [List.length_cons] at h3 ⊢
    omega
  · subst hr hf
    obtain ⟨s, hs, hms, rfl⟩ := matchTok_some _ _ _ hm1
    simp only [List.mem_singleton] at hs
    subst hs
    have hlen := matchesStr_length_le _ _ hms
    have h1 := hloop f "~~" _ [] "" node r₂ (by omega) hl
    have h2 := matchTok_length_le r₂ ["~~"] r' hm2
    have h3 : (List.drop ("~~").length ('~' :: cs)).length =
        ('~' :: cs).length - ("~~").length := List.length_drop _ _
    simp only [List.length_cons] at h3 hlen ⊢
    have hl2 : ("~~").length = 2 := by decide
    omega
  · subst hr
    have hdlen : 1 ≤ delim.length := by
      rw [hd]
      split
      · decide
      · decide
    obtain ⟨s, hs, hms, hr1⟩ := matchTok_some _ _ _ hm1
    simp only [List.mem_singleton] at hs
    rw [hs] at hms hr1
    subst hr1
    have hlen := matchesStr_length_le _ _ hms
    have h1 := parseText_rest_length delim (List.drop delim.length ('`' :: cs)) ""
    have h2 := matchTok_length_le _ [delim] r' hm2
    have h3 : (List.drop delim.length ('`' :: cs)).length =
        ('`' :: cs).length - delim.length := List.length_drop _ _
    simp only [List.length_cons] at h3 hlen ⊢
    omega
  · subst hr
    obtain ⟨s, hs, hms, rfl⟩ := matchTok_some _ _ _ hm1
    simp only [List.mem_singleton] at hs
    subst hs
    have hlen := matchesStr_length_le _ _ hms
    have h1 := parseText_rest_length "]" (List.drop ("[").length ('!' :: cs).tail) ""
    have h2 := matchTok_length_le _ ["]("] r₃ hm2
    have h3 := parseText_rest_length ")" r₃ ""
    have h4 := matchTok_length_le _ [")"] r' hm3
    have h5 : (List.drop ("[").length ('!' :: cs).tail).length =
        ('!' :: cs).tail.length - ("[").length := List.length_drop _ _
    have hl1 : ("[").length = 1 := by decide
    simp only [List.length_cons, List.tail_cons] at h1 h2 h3 h4 h5 hlen ⊢
    omega
  · subst hr hf
    have h1 := hloop f "]" _ [] "" label r₁ (by omega) hl
    have h2 := matchTok_length_le r₁ ["]("] r₂ hm1
    have h3 := parseText_rest_length ")" r₂ ""
    have h4 := matchTok_length_le _ [")"] r' hm2
    simp only [List.tail_cons] at h1
    simp only [List.length_cons]
    omega

theorem parseNextLoop_mono : ∀ (fuel : Nat) (endS : String) (r : List Char)
    (ch : List MarkdownNode) (t : String) (n : MarkdownNode) (r' : List Char),
    parseNextLoop endS fuel r ch t = some (n, r') → r'.length ≤ r.length := by
  intro fuel
  induction fuel using Nat.strong_induction_on with
  | _ fuel IH =>
    intro endS r ch t n r' h
    rcases fuel with _ | f
    · simp [parseNextLoop] at h
    · rcases parseNextLoop_inv _ _ _ _ _ _ _ h with
        ⟨hr, hn, hr'⟩ |
        ⟨hne, hesc, hrec⟩ |
        ⟨hne, hesc, hbrk, hn, hr'⟩ |
        ⟨hne, hesc, hnbrk, hnp, hrec⟩ |
        ⟨hne, hesc, hnp, hfail, hrec⟩ |
        ⟨hne, hesc, hnp, node, r₂, hok, hrec⟩
      · subst hr'
        simp
      · have h1 := IH f (by omega) _ _ _ _ _ _ hrec
        have h2 := parseText_rest_length "" r ""
        omega
      · subst hr'
        exact parseText_rest_length "" r ""
      · have h2 := skipNewlines_length (parseText "" r "").2
        have h3 := parseText_rest_length "" r ""
        rcases hrec with ⟨_, hrec⟩ | ⟨_, hrec⟩ <;>
          · have h1 := IH f (by omega) _ _ _ _ _ _ hrec
            omega
      · have h1 := IH f (by omega) _ _ _ _ _ _ hrec
        have h2 := parseText_rest_length "" r ""
        have h3 : (parseText "" r "").2.tail.length = (parseText "" r "").2.length - 1 := by
          simp
        omega
      · have hlt := parseCurrent_ok_length f _ node r₂
          (fun f' e r₀ ch₀ t₀ m r₁ hf' hl => IH f' (by omega) e r₀ ch₀ t₀ m r₁ hl) hok
        have h1 := IH f (by omega) _ _ _ _ _ _ hrec
        have h2 := parseText_rest_length "" r ""
        omega

theorem parseCurrent_oof_inv (fuel : Nat) (r : List Char)
    (h : parseCurrent fuel r = .oof) :
    (∃ c cs, r = c :: cs ∧ (c = '*' ∨ c = '_') ∧
      (fuel = 0 ∨ ∃ f, fuel = f + 1 ∧
        parseNextLoop (if matchesStr r "**" then "**" else c.toString) f
          (r.drop (if matchesStr r "**" then "**" else c.toString).length) [] "" = none)) ∨
    (∃ cs r₁, r = '~' :: cs ∧ matchTok r ["~~"] = some r₁ ∧
      (fuel = 0 ∨ ∃ f, fuel = f + 1 ∧ parseNextLoop "~~" f r₁ [] "" = none)) ∨
    (∃ cs, r = '[' :: cs ∧
      (fuel = 0 ∨ ∃ f, fuel = f + 1 ∧ parseNextLoop "]" f r.tail [] "" = none)) := by
  match r with
  | [] => simp [parseCurrent.eq_def] at h
  | c :: cs =>
    simp only [parseCurrent.eq_def] at h
    split at h
    · rename_i h1
      left
      refine ⟨c, cs, rfl, h1, ?_⟩
      split at h
      · exact Or.inl rfl
      · rename_i f
        split at h
        · rename_i heq
          exact Or.inr ⟨f, rfl, heq⟩
        · rename_i node r₁ hloop
          split at h
          · simp at h
          · simp at h
    · rename_i h1
      split at h
      · rename_i h2
        subst h2
        right; left
        split at h
        · simp at h
        · rename_i r₁ hmt
          refine ⟨cs, r₁, rfl, hmt, ?_⟩
          split at h
          · exact Or.inl rfl
          · rename_i f
            split at h
            · rename_i heq
              exact Or.inr ⟨f, rfl, heq⟩
            · rename_i node r₂ hloop
              split at h
              · simp at h
              · simp at h
      · rename_i h2
        split at h
        · rename_i h3
          split at h
          · simp at h
          · rename_i h4
            by_cases hdd : matchesStr (c :: cs) "``" = true
            · rw [if_pos hdd] at h
              split at h
              · simp at h
              · rename_i r₁ hmt
                split at h
                · simp at h
                · split at h
                  · simp at h
                  · simp at h
            · rw [if_neg hdd] at h
              split at h
              · simp at h
              · rename_i r₁ hmt
                split at h
                · simp at h
                · split at h
                  · simp at h
                  · simp at h
        · rename_i h3
          split at h
          · rename_i h4
            split at h
            · simp at h
            · rename_i r₁ hmt
              split at h
              · simp at h
              · rename_i r₃ hmt2
                split at h
                · simp at h
                · simp at h
          · rename_i h4
            split at h
            · rename_i h5
              subst h5
              right; right
              refine ⟨cs, rfl, ?_⟩
              split at h
              · exact Or.inl rfl
              · rename_i f
                split at h
                · rename_i heq
                  exact Or.inr ⟨f, rfl, heq⟩
                · rename_i label r₁ hloop
                  split at h
                  · simp at h
                  · rename_i r₂ hmt
                    split at h
                    · simp at h
                    · simp at h
            · simp at h

theorem parseCurrent_not_oof (fuel : Nat) (r : List Char)
    (hloop : ∀ f endS r₀ ch t, f < fuel → 2 * r₀.length < f →
      (parseNextLoop endS f r₀ ch t).isSome)
    (hfuel : 2 * r.length ≤ fuel) : parseCurrent fuel r ≠ .oof := by
  intro h
  rcases parseCurrent_oof_inv fuel r h with
    ⟨c, cs, hr, hc, hrest⟩ | ⟨cs, r₁, hr, hmt, hrest⟩ | ⟨cs, hr, hrest⟩
  · subst hr
    rcases hrest with rfl | ⟨f, rfl, hnone⟩
    · simp only [List.length_cons] at hfuel
      omega
    · have hd1 : 1 ≤ (if matchesStr (c :: cs) "**" then "**" else c.toString).length := by
        split
        · decide
        · simp [char_toString_length]
      have hdrop : (List.drop (if matchesStr (c :: cs) "**" then "**" else c.toString).length
          (c :: cs)).length =
          (c :: cs).length - (if matchesStr (c :: cs) "**" then "**" else c.toString).length :=
        List.length_drop _ _
      have hb : 2 * (List.drop (if matchesStr (c :: cs) "**" then "**"
          else c.toString).length (c :: cs)).length < f := by
        simp only [List.length_cons] at hfuel hdrop
        omega
      have hs2 := hloop f (if matchesStr (c :: cs) "**" then "**" else c.toString)
        (List.drop (if matchesStr (c :: cs) "**" then "**" else c.toString).length (c :: cs))
        [] "" (by omega) hb
      rw [hnone] at hs2
      simp at hs2
  · subst hr
    rcases hrest with rfl | ⟨f, rfl, hnone⟩
    · simp only [List.length_cons] at hfuel
      omega
    · obtain ⟨s, hs, hms, hr1⟩ := matchTok_some _ _ _ hmt
      simp only [List.mem_singleton] at hs
      rw [hs] at hms hr1
      subst hr1
      have hlen := matchesStr_length_le _ _ hms
      have hdrop : (List.drop ("~~").length ('~' :: cs)).length =
          ('~' :: cs).length - ("~~").length := List.length_drop _ _
      have hl2 : ("~~").length = 2 := by decide
      have hb : 2 * (List.drop ("~~").length ('~' :: cs)).length < f := by
        simp only [List.length_cons] at hfuel hdrop hlen
        omega
      have hs2 := hloop f "~~" (List.drop ("~~").length ('~' :: cs)) [] "" (by omega) hb
      rw [hnone] at hs2
      simp at hs2
  · subst hr
    rcases hrest with rfl | ⟨f, rfl, hnone⟩
    · simp only [List.length_cons] at hfuel
      omega
    · have hb : 2 * ((('[' : Char) :: cs).tail).length < f := by
        simp only [List.length_cons, List.tail_cons] at hfuel ⊢
        omega
      have hs2 := hloop f "]" (('[' :: cs).tail) [] "" (by omega) hb
      rw [hnone] at hs2
      simp at hs2

theorem parseNextLoop_total : ∀ (fuel : Nat) (endS : String) (r : List Char)
    (ch : List MarkdownNode) (t : String),
    2 * r.length < fuel → (parseNextLoop endS fuel r ch t).isSome := by
  intro fuel
  induction fuel using Nat.strong_induction_on with
  | _ fuel IH =>
    intro endS r ch t hfuel
    rcases fuel with _ | f
    · omega
    · rcases r with _ | ⟨a, l⟩
      · simp [parseNextLoop]
      · simp only [parseNextLoop]
        split
        · rename_i hesc
          rcases parseText_progress "" (a :: l) "" with ⟨h1, h2⟩ | hlt
          · exact absurd h1 (by simpa using hesc)
          · apply IH f (by omega)
            simp only [List.length_cons] at hfuel hlt ⊢
            omega
        · split
          · simp
          · split
            · rename_i hnp
              have hskip := skipNewlines_progress _ hnp
              have hpt := parseText_rest_length "" (a :: l) ""
              split <;>
                (apply IH f (by omega)
                 simp only [List.length_cons] at hfuel hpt ⊢
                 omega)
            · rename_i hnp
              have hpt := parseText_rest_length "" (a :: l) ""
              have hne : parseCurrent f (parseText "" (a :: l) "").2 ≠ .oof := by
                apply parseCurrent_not_oof
                · intro f' e r₀ ch₀ t₀ hf' hr₀
                  exact IH f' (by omega) e r₀ ch₀ t₀ hr₀
                · simp only [List.length_cons] at hfuel hpt ⊢
                  omega
              split
              · rename_i heq
                exact absurd heq hne
              · apply IH f (by omega)
                have htl : (parseText "" (a :: l) "").2.tail.length =
                    (parseText "" (a :: l) "").2.length - 1 := by simp
                simp only [List.length_cons] at hfuel hpt ⊢
                omega
              · rename_i node r₂ heq
                have hlt := parseCurrent_ok_length f _ node r₂
                  (fun f' e r₀ ch₀ t₀ m r₁ hf' hl =>
                    parseNextLoop_mono f' e r₀ ch₀ t₀ m r₁ hl) heq
                apply IH f (by omega)
                simp only [List.length_cons] at hfuel hpt hlt ⊢
                omega

/-- C1: for every input string — including the empty string, unterminated
delimiters, a lone opening bracket, and unmatched backticks — `parse`
terminates within its fuel bound and returns a node.  No failure is
observable at the public boundary: the `Mismatch`/decline signals are
consumed at the dispatch site inside the loop, and the loop's only results
are `some` node (the `none` of the embedding models fuel exhaustion, which
this theorem rules out for every input). -/
theorem claim_C1_totality (input : String) : (parse input).isSome = true := by
  have hlen : input.data.length = input.length := string_length_data input
  have h := parseNextLoop_total (2 * input.length + 1) "" input.data [] "" (by omega)
  rcases Option.isSome_iff_exists.mp h with ⟨p, hp⟩
  simp [parse, hp]

/-- C9: the cursor's `expect` operation (`match` in the code, `matchTok` here)
succeeds exactly when some candidate literally matches at the current
position, consuming exactly the first matching candidate's length (expressed
here on the remaining-suffix cursor as dropping that length); it signals
`Mismatch` (`none`) iff no candidate matches, and on failure it returns no
new cursor, so the caller's position is unchanged. -/
theorem claim_C9_match (r : List Char) (cands : List String) :
    matchTok r cands = (cands.find? (matchesStr r)).map (fun s => r.drop s.length) ∧
    (matchTok r cands = none ↔ ∀ s ∈ cands, matchesStr r s = false) := by
  refine ⟨matchTok_eq_find r cands, ?_⟩
  rw [matchTok_eq_find]
  simp [List.find?_eq_none]

/-- C3, counterexample: the claim that `parse "*a**"` degrades to the single
literal text `"*a**"` is false on the code. -/
theorem claim_C3_counterexample : parse "*a**" ≠ some (.text "*a**") := by
  rw [show parse "*a**" = some (.fragment [.italic (.text "a"), .text "*"]) from rfl]
  simp

/-- C3, amended: `parse "*a**"` returns
`fragment [italic (text "a"), text "*"]` — the first `*` opens an italic run
that the third character closes, and only the trailing `*` degrades to
literal text. -/
theorem claim_C3_amended :
    parse "*a**" = some (.fragment [.italic (.text "a"), .text "*"]) := rfl

/-- C7: `parse "\\*a\\*"` yields the single text node `"*a*"`, and whenever
the scanner sees a backslash with a following character it consumes both and
appends the second verbatim — this is the escape equation of `parseText`,
which is checked before the terminator/newline stop condition, so an escaped
character is never treated as markup, terminator, or newline. -/
theorem claim_C7_escape : parse "\\*a\\*" = some (.text "*a*") ∧
    ∀ (endS : String) (c : Char) (rest : List Char) (acc : String),
      parseText endS ('\\' :: c :: rest) acc = parseText endS rest (acc.push c) :=
  ⟨rfl, fun _ _ _ _ => rfl⟩

/-- C8: `parse "\x60\x60\x60a\x60\x60\x60"` returns the single literal text node
(content equal to the input): whenever the dispatcher sees three backticks at
the opening position it declines, and the whole triple-backtick input
degrades to literal text with no `code` node (the post-scan decline is
exercised by the concrete input, where every code-span attempt fails). -/
theorem claim_C8_fenced : parse "```a```" = some (.text "```a```") ∧
    ∀ (fuel : Nat) (r : List Char), matchesStr r "```" = true →
      parseCurrent fuel r = .fail := by
  refine ⟨rfl, ?_⟩
  intro fuel r h
  have hh := matchesStr_head r "```" h (by decide)
  rcases r with _ | ⟨c, cs⟩
  · simp at hh
  · simp at hh
    subst hh
    simp only [parseCurrent.eq_def]
    simp [h]

/-- witness for C8 at the concrete opening position of three backticks. -/
theorem claim_C8_fenced_witness :
    parse "```a```" = some (.text "```a```") ∧ parseCurrent 0 ("```".data) = .fail :=
  ⟨claim_C8_fenced.1, claim_C8_fenced.2 0 ("```".data) (by decide)⟩

/-- C10: at top level (empty terminator), a single newline that is not part
of a blank-line pair falls through escape, terminator, and blank-line checks
into the dispatch-fail path, and is appended verbatim to the pending text:
`parse "a\nb"` is the single text node `"a\nb"` — no line-break node, the
newline neither dropped nor converted. -/
theorem claim_C10_newline : parse "a\nb" = some (.text "a\nb") ∧
    ∀ (fuel : Nat) (c : Char) (rest : List Char) (ch : List MarkdownNode) (t : String),
      (c = '\r' ∨ c = '\n') → matchesAny (c :: rest) NEW_PARAGRAPH = false →
      parseNextLoop "" (fuel + 1) (c :: rest) ch t =
        parseNextLoop "" fuel rest ch (t.push c) := by
  refine ⟨rfl, ?_⟩
  intro fuel c rest ch t hc hnp
  have hcb : c ≠ '\\' := by
    rcases hc with rfl | rfl <;> decide
  have hpt : parseText "" (c :: rest) "" = ("", c :: rest) :=
    parseText_stop "" c rest "" hcb (Or.inl rfl)
  have hfail : parseCurrent fuel (c :: rest) = .fail := by
    simp only [parseCurrent.eq_def]
    rcases hc with rfl | rfl <;>
      rw [if_neg (by decide), if_neg (by decide), if_neg (by decide),
        if_neg (by decide), if_neg (by decide)]
  simp only [parseNextLoop, hpt]
  rw [if_neg (by simp), if_neg (by simp), if_neg (by simp [hnp]), hfail]
  simp

/-- witness for C10's loop-step equation at a concrete newline. -/
theorem claim_C10_newline_witness :
    parseNextLoop "" 1 ('\n' :: ['b']) [] "a" = parseNextLoop "" 0 ['b'] [] ("a".push '\n') :=
  claim_C10_newline.2 0 '\n' ['b'] [] "a" (Or.inr rfl) (by decide)

/-- C2, counterexample: a nested invocation (terminator `"*"`) that reaches a
blank line stops there without consuming it and without any paragraph
promotion — it returns just `text "a"` — and the enclosing
`parse "*a\n\nb*"` yields two top-level paragraphs, not paragraph grouping
inside the emphasis run. -/
theorem claim_C2_counterexample :
    parseNextLoop "*" 9 ['a', '\n', '\n', 'b', '*'] [] "" =
      some (.text "a", ['\n', '\n', 'b', '*']) ∧
    parse "*a\n\nb*" =
      some (.fragment [.paragraph [.text "*a"], .paragraph [.text "b*"]]) :=
  ⟨rfl, rfl⟩

/-- C2, amended: in every invocation of the loop with a non-empty terminator,
any newline lookahead (in particular the first newline of a blank line) fires
the terminator-break check, which precedes the blank-line branch, so the
nested parse stops immediately without consuming and paragraph promotion
never runs at that nesting level. -/
theorem claim_C2_amended (endS : String) (fuel : Nat) (r : List Char)
    (ch : List MarkdownNode) (t : String) (hend : endS ≠ "")
    (hnl : matchesAny r NEWLINE = true) :
    parseNextLoop endS (fuel + 1) r ch t = some (finishParse ch t, r) := by
  obtain ⟨rest, hr | hr⟩ := newline_head r hnl
  · subst hr
    have hpt : parseText "" ('\r' :: rest) "" = ("", '\r' :: rest) :=
      parseText_stop "" '\r' rest "" (by decide) (Or.inl rfl)
    simp only [parseNextLoop, hpt]
    rw [if_neg (by simp), if_pos ⟨hend, Or.inr hnl⟩]
  · subst hr
    have hpt : parseText "" ('\n' :: rest) "" = ("", '\n' :: rest) :=
      parseText_stop "" '\n' rest "" (by decide) (Or.inl rfl)
    simp only [parseNextLoop, hpt]
    rw [if_neg (by simp), if_pos ⟨hend, Or.inr hnl⟩]

/-- witness for the amended C2 at a concrete nested blank line. -/
theorem claim_C2_amended_witness :
    parseNextLoop "*" 1 ['\n', 'b'] [] "a" = some (finishParse [] "a", ['\n', 'b']) :=
  claim_C2_amended "*" 0 ['\n', 'b'] [] "a" (by decide) (by decide)

/-- C5: for every pairing of newline styles from `NEWLINE`,
`parse ("a" ++ p ++ s ++ "b")` is a fragment with exactly two paragraph
children, `paragraph [text "a"]` and `paragraph [text "b"]` — structurally
identical across all nine pairings. -/
theorem claim_C5_paragraphs (p s : String) (hp : p ∈ NEWLINE) (hs : s ∈ NEWLINE) :
    parse ("a" ++ p ++ s ++ "b") =
      some (.fragment [.paragraph [.text "a"], .paragraph [.text "b"]]) := by
  fin_cases hp <;> fin_cases hs <;> rfl

/-- witness for C5 at the plain `"\n\n"` pairing. -/
theorem claim_C5_paragraphs_witness :
    parse ("a" ++ "\n" ++ "\n" ++ "b") =
      some (.fragment [.paragraph [.text "a"], .paragraph [.text "b"]]) :=
  claim_C5_paragraphs "\n" "\n" (by decide) (by decide)

/-- test for the `fragment` variant. -/
def isFragment : MarkdownNode → Bool
  | .fragment _ => true
  | _ => false

theorem parseCurrent_not_fragment (fuel : Nat) (r : List Char) (n : MarkdownNode)
    (r' : List Char) (h : parseCurrent fuel r = .ok n r') : isFragment n = false := by
  rcases parseCurrent_ok_inv fuel r n r' h with
    ⟨c, cs, f, delim, node, r₁, hr, hc, hf, hd, hl, hm, hn⟩ |
    ⟨cs, f, node, r₁, r₂, hr, hf, hm1, hl, hm2, hn⟩ |
    ⟨cs, delim, r₁, hr, h3, hd, hm1, h5, hm2, hn⟩ |
    ⟨cs, r₁, r₃, hr, hm1, hm2, hm3, hn⟩ |
    ⟨cs, f, label, r₁, r₂, hr, hf, hl, hm1, hm2, hn⟩ <;>
  subst hn
  · split <;> rfl
  · rfl
  · rfl
  · rfl
  · rfl

theorem appendChild_not_fragment (ch : List MarkdownNode) (n : MarkdownNode)
    (hch : ∀ c ∈ ch, isFragment c = false) (hn : isFragment n = false) :
    ∀ c ∈ appendChild ch n, isFragment c = false := by
  intro c hc
  rw [appendChild.eq_def] at hc
  split at hc
  · rename_i ps heq
    rcases List.mem_append.mp hc with hc | hc
    · exact hch c (List.dropLast_subset _ hc)
    · rw [List.mem_singleton.mp hc]
      rfl
  · rcases List.mem_append.mp hc with hc | hc
    · exact hch c hc
    · rw [List.mem_singleton.mp hc]
      exact hn

theorem flushText_not_fragment (ch : List MarkdownNode) (t : String)
    (hch : ∀ c ∈ ch, isFragment c = false) :
    ∀ c ∈ flushText ch t, isFragment c = false := by
  intro c hc
  rw [flushText] at hc
  split at hc
  · exact hch c hc
  · exact appendChild_not_fragment ch (.text t) hch rfl c hc

theorem appendParsed_not_fragment (ch : List MarkdownNode) (t : String) (n : MarkdownNode)
    (hch : ∀ c ∈ ch, isFragment c = false) (hn : isFragment n = false) :
    ∀ c ∈ appendParsed ch t n, isFragment c = false :=
  appendChild_not_fragment _ n (flushText_not_fragment ch t hch) hn

theorem promote_not_fragment (ch : List MarkdownNode) (t : String)
    (hch : ∀ c ∈ ch, isFragment c = false) :
    ∀ c ∈ promote ch t, isFragment c = false := by
  intro c hc
  simp only [promote] at hc
  rcases List.mem_append.mp hc with hc | hc
  · split at hc
    · rename_i ps heq
      split at hc
      · exact hch c hc
      · rcases List.mem_append.mp hc with hc | hc
        · exact hch c (List.dropLast_subset _ hc)
        · rw [List.mem_singleton.mp hc]
          rfl
    · split at hc
      · rw [List.mem_singleton.mp hc]
        rfl
      · rw [List.mem_singleton.mp hc]
        rfl
  · rw [List.mem_singleton.mp hc]
    rfl

theorem finishParse_no_singleton (ch : List MarkdownNode) (t : String)
    (hch : ∀ c ∈ ch, isFragment c = false) :
    ∀ x, finishParse ch t ≠ .fragment [x] := by
  intro x heq
  have h1 : ∀ c ∈ flushText ch t, isFragment c = false := flushText_not_fragment _ _ hch
  simp only [finishParse] at heq
  revert heq
  generalize hl : flushText ch t = l at h1
  intro heq
  have h2 : ∀ c ∈ (match l.getLast? with
      | some (.paragraph []) => l.dropLast
      | _ => l), isFragment c = false := by
    split
    · intro c hc
      exact h1 c (List.dropLast_subset _ hc)
    · exact h1
  revert heq
  generalize hm : (match l.getLast? with
      | some (.paragraph []) => l.dropLast
      | _ => l) = l2 at h2
  intro heq
  rcases l2 with _ | ⟨a, _ | ⟨b, l3⟩⟩
  · simp at heq
  · have ha := h2 a (by simp)
    simp only at heq
    rw [heq] at ha
    simp [isFragment] at ha
  · simp at heq

theorem parseNextLoop_no_singleton : ∀ (fuel : Nat) (endS : String) (r : List Char)
    (ch : List MarkdownNode) (t : String) (n : MarkdownNode) (r' : List Char),
    (∀ c ∈ ch, isFragment c = false) →
    parseNextLoop endS fuel r ch t = some (n, r') → ∀ x, n ≠ .fragment [x] := by
  intro fuel
  induction fuel using Nat.strong_induction_on with
  | _ fuel IH =>
    intro endS r ch t n r' hch h
    rcases fuel with _ | f
    · simp [parseNextLoop] at h
    · rcases parseNextLoop_inv _ _ _ _ _ _ _ h with
        ⟨hr, hn, hr'⟩ | ⟨hne, hesc, hrec⟩ | ⟨hne, hesc, hbrk, hn, hr'⟩ |
        ⟨hne, hesc, hnbrk, hnp, hrec⟩ | ⟨hne, hesc, hnp, hfail, hrec⟩ |
        ⟨hne, hesc, hnp, node, r₂, hok, hrec⟩
      · subst hn
        exact finishParse_no_singleton ch t hch
      · exact IH f (by omega) _ _ _ _ _ _ hch hrec
      · subst hn
        exact finishParse_no_singleton ch t hch
      · rcases hrec with ⟨_, hrec⟩ | ⟨_, hrec⟩
        · exact IH f (by omega) _ _ _ _ _ _ (promote_not_fragment ch t hch) hrec
        · exact IH f (by omega) _ _ _ _ _ _ hch hrec
      · exact IH f (by omega) _ _ _ _ _ _ hch hrec
      · have hnf := parseCurrent_not_fragment f _ node r₂ hok
        exact IH f (by omega) _ _ _ _ _ _
          (appendParsed_not_fragment ch t node hch hnf) hrec

/-- C6: `parse "hello"` returns the bare text node (not a one-element
fragment), `parse ""` returns a fragment with zero children, and in general
the outermost return collapses a single-child fragment, so `parse` never
returns a one-element fragment. -/
theorem claim_C6_collapse : parse "hello" = some (.text "hello") ∧
    parse "" = some (.fragment []) ∧
    ∀ (s : String) (n : MarkdownNode), parse s = some n → ∀ x, n ≠ .fragment [x] := by
  refine ⟨rfl, rfl, ?_⟩
  intro s n h x
  unfold parse at h
  rcases hloop : parseNextLoop "" (2 * s.length + 1) s.data [] "" with _ | ⟨m, rr⟩
  · rw [hloop] at h
    simp at h
  · rw [hloop] at h
    simp at h
    subst h
    exact parseNextLoop_no_singleton _ _ _ _ _ _ _ (by simp) hloop x

/-- witness for C6's no-singleton-fragment component at `"hello"`. -/
theorem claim_C6_collapse_witness :
    (MarkdownNode.text "hello") ≠ .fragment [.text "x"] :=
  claim_C6_collapse.2.2 "hello" (.text "hello") rfl (.text "x")

mutual

/-- true when no `paragraph` node occurs anywhere in the tree. -/
def paraFree : MarkdownNode → Bool
  | .fragment ch => paraFreeList ch
  | .paragraph _ => false
  | .text _ => true
  | .italic c => paraFree c
  | .bold c => paraFree c
  | .strike c => paraFree c
  | .code _ => true
  | .link _ c => paraFree c
  | .image _ _ => true

/-- conjunction of `paraFree` over a list of children. -/
def paraFreeList : List MarkdownNode → Bool
  | [] => true
  | c :: cs => paraFree c && paraFreeList cs

end

/-- a node admissible as a direct child of the document root: a paragraph
whose contents are paragraph-free, or any paragraph-free node. -/
def paraChildOK : MarkdownNode → Bool
  | .paragraph ps => paraFreeList ps
  | n => paraFree n

/-- the root-level shape claim C4 asserts of every parse result: paragraphs
occur only as direct children of the root (or as the root itself after
collapsing), never nested inside paragraphs or inline subtrees. -/
def rootOK : MarkdownNode → Bool
  | .fragment ch => ch.all paraChildOK
  | n => paraChildOK n

theorem paraFreeList_iff (l : List MarkdownNode) :
    paraFreeList l = true ↔ ∀ c ∈ l, paraFree c = true := by
  induction l with
  | nil => simp [paraFreeList]
  | cons c cs ih => simp [paraFreeList, Bool.and_eq_true, ih]

theorem paraFree_paraChildOK (n : MarkdownNode) (h : paraFree n = true) :
    paraChildOK n = true := by
  cases n <;> simp_all [paraFree, paraChildOK]

theorem paraFree_rootOK (n : MarkdownNode) (h : paraFree n = true) :
    rootOK n = true := by
  cases n <;>
    simp_all [paraFree, rootOK, paraChildOK, List.all_eq_true, paraFreeList_iff]
  · rename_i ch
    intro c hc
    exact paraFree_paraChildOK c (by simp_all [paraFreeList_iff])

theorem char_toString_ne_empty (c : Char) : c.toString ≠ "" := by
  intro h
  have := char_toString_length c
  rw [h] at this
  simp at this

theorem mem_of_getLast?_eq {α : Type} {l : List α} {a : α}
    (h : l.getLast? = some a) : a ∈ l := by
  obtain ⟨hne, hx⟩ := @List.mem_getLast?_eq_getLast α l a (by simp [Option.mem_def, h])
  rw [hx]
  exact List.getLast_mem hne

theorem appendChild_paraFree (ch : List MarkdownNode) (n : MarkdownNode)
    (hch : ∀ c ∈ ch, paraFree c = true) (hn : paraFree n = true) :
    ∀ c ∈ appendChild ch n, paraFree c = true := by
  intro c hc
  rw [appendChild.eq_def] at hc
  split at hc
  · rename_i ps heq
    have hmem := mem_of_getLast?_eq heq
    have := hch _ hmem
    simp [paraFree] at this
  · rcases List.mem_append.mp hc with hc | hc
    · exact hch c hc
    · rw [List.mem_singleton.mp hc]
      exact hn

theorem flushText_paraFree (ch : List MarkdownNode) (t : String)
    (hch : ∀ c ∈ ch, paraFree c = true) :
    ∀ c ∈ flushText ch t, paraFree c = true := by
  intro c hc
  rw [flushText] at hc
  split at hc
  · exact hch c hc
  · exact appendChild_paraFree ch (.text t) hch rfl c hc

theorem appendParsed_paraFree (ch : List MarkdownNode) (t : String) (n : MarkdownNode)
    (hch : ∀ c ∈ ch, paraFree c = true) (hn : paraFree n = true) :
    ∀ c ∈ appendParsed ch t n, paraFree c = true :=
  appendChild_paraFree _ n (flushText_paraFree ch t hch) hn

theorem finishParse_paraFree (ch : List MarkdownNode) (t : String)
    (hch : ∀ c ∈ ch, paraFree c = true) : paraFree (finishParse ch t) = true := by
  have h1 : ∀ c ∈ flushText ch t, paraFree c = true := flushText_paraFree _ _ hch
  simp only [finishParse]
  generalize hl : flushText ch t = l at h1
  have h2 : ∀ c ∈ (match l.getLast? with
      | some (.paragraph []) => l.dropLast
      | _ => l), paraFree c = true := by
    split
    · intro c hc
      exact h1 c (List.dropLast_subset _ hc)
    · exact h1
  generalize hm : (match l.getLast? with
      | some (.paragraph []) => l.dropLast
      | _ => l) = l2 at h2
  rcases l2 with _ | ⟨a, _ | ⟨b, l3⟩⟩
  · rfl
  · exact h2 a (by simp)
  · simp only [paraFree, paraFreeList_iff]
    exact h2

theorem nested_paraFree : ∀ (fuel : Nat),
    (∀ (endS : String) (r : List Char) (ch : List MarkdownNode) (t : String)
      (n : MarkdownNode) (r' : List Char), endS ≠ "" →
      (∀ c ∈ ch, paraFree c = true) →
      parseNextLoop endS fuel r ch t = some (n, r') → paraFree n = true) ∧
    (∀ (r : List Char) (n : MarkdownNode) (r' : List Char),
      parseCurrent fuel r = .ok n r' → paraFree n = true) := by
  intro fuel
  induction fuel using Nat.strong_induction_on with
  | _ fuel IH =>
    constructor
    · intro endS r ch t n r' hend hch h
      rcases fuel with _ | f
      · simp [parseNextLoop] at h
      · rcases parseNextLoop_inv _ _ _ _ _ _ _ h with
          ⟨hr, hn, hr'⟩ | ⟨hne, hesc, hrec⟩ | ⟨hne, hesc, hbrk, hn, hr'⟩ |
          ⟨hne, hesc, hnbrk, hnp, hrec⟩ | ⟨hne, hesc, hnp, hfail, hrec⟩ |
          ⟨hne, hesc, hnp, node, r₂, hok, hrec⟩
        · subst hn
          exact finishParse_paraFree ch t hch
        · exact (IH f (by omega)).1 _ _ _ _ _ _ hend hch hrec
        · subst hn
          exact finishParse_paraFree ch t hch
        · exact absurd ⟨hend, Or.inr (newParagraph_newline _ hnp)⟩ hnbrk
        · exact (IH f (by omega)).1 _ _ _ _ _ _ hend hch hrec
        · have hnf := (IH f (by omega)).2 _ _ _ hok
          exact (IH f (by omega)).1 _ _ _ _ _ _ hend
            (appendParsed_paraFree ch t node hch hnf) hrec
    · intro r n r' h
      rcases parseCurrent_ok_inv fuel r n r' h with
        ⟨c, cs, f, delim, node, r₁, hr, hc, hf, hd, hl, hm, hn⟩ |
        ⟨cs, f, node, r₁, r₂, hr, hf, hm1, hl, hm2, hn⟩ |
        ⟨cs, delim, r₁, hr, h3, hd, hm1, h5, hm2, hn⟩ |
        ⟨cs, r₁, r₃, hr, hm1, hm2, hm3, hn⟩ |
        ⟨cs, f, label, r₁, r₂, hr, hf, hl, hm1, hm2, hn⟩
      · subst hf hn
        have hdne : delim ≠ "" := by
          rw [hd]
          split
          · decide
          · exact char_toString_ne_empty c
        have hpf := (IH f (by omega)).1 delim _ [] "" node r₁ hdne (by simp) hl
        split <;> simpa [paraFree] using hpf
      · subst hf hn
        have hpf := (IH f (by omega)).1 "~~" _ [] "" node r₂ (by decide) (by simp) hl
        simpa [paraFree] using hpf
      · subst hn
        rfl
      · subst hn
        rfl
      · subst hf hn
        have hpf := (IH f (by omega)).1 "]" _ [] "" label r₁ (by decide) (by simp) hl
        simpa [paraFree] using hpf

/-- at top level the accumulated children are either still flat (no paragraph
introduced yet, all paragraph-free) or fully promoted (every child is a
paragraph with paragraph-free contents).  This is the loop invariant behind
claim C4. -/
def RootInv (ch : List MarkdownNode) : Prop :=
  (∀ c ∈ ch, paraFree c = true) ∨
  (∀ c ∈ ch, ∃ ps, c = .paragraph ps ∧ ∀ p ∈ ps, paraFree p = true)

theorem appendChild_eq_para (ch : List MarkdownNode) (n : MarkdownNode)
    (ps : List MarkdownNode) (h : ch.getLast? = some (.paragraph ps)) :
    appendChild ch n = ch.dropLast ++ [.paragraph (ps ++ [n])] := by
  rw [appendChild.eq_def, h]

theorem appendChild_eq_other (ch : List MarkdownNode) (n : MarkdownNode)
    (h : ∀ ps, ch.getLast? ≠ some (.paragraph ps)) :
    appendChild ch n = ch ++ [n] := by
  rcases hl : ch.getLast? with _ | m
  · rw [appendChild.eq_def, hl]
  · rw [appendChild.eq_def, hl]
    cases m
    all_goals first | rfl | exact absurd hl (h _)

theorem promote_eq_para (ch : List MarkdownNode) (t : String)
    (ps : List MarkdownNode) (h : ch.getLast? = some (.paragraph ps)) :
    promote ch t = (if t = "" then ch
      else ch.dropLast ++ [.paragraph (ps ++ [.text t])]) ++ [.paragraph []] := by
  simp only [promote, h]

theorem promote_eq_other (ch : List MarkdownNode) (t : String)
    (h : ∀ ps, ch.getLast? ≠ some (.paragraph ps)) :
    promote ch t = (if t = "" then [.paragraph ch]
      else [.paragraph (ch ++ [.text t])]) ++ [.paragraph []] := by
  rcases hl : ch.getLast? with _ | m
  · simp only [promote, hl]
  · cases m
    all_goals first | exact absurd hl (h _) | simp only [promote, hl]

theorem rootInv_all_paraFree (ch : List MarkdownNode) (hinv : RootInv ch)
    (h : ∀ ps, ch.getLast? ≠ some (.paragraph ps)) :
    ∀ c ∈ ch, paraFree c = true := by
  rcases hinv with hinv | hinv
  · exact hinv
  · rcases hl : ch.getLast? with _ | m
    · have hnil : ch = [] := by simpa using hl
      subst hnil
      simp
    · have hm := mem_of_getLast?_eq hl
      obtain ⟨ps, rfl, _⟩ := hinv m hm
      exact absurd hl (h ps)

theorem appendChild_rootInv (ch : List MarkdownNode) (n : MarkdownNode)
    (hinv : RootInv ch) (hn : paraFree n = true) : RootInv (appendChild ch n) := by
  by_cases hpara : ∃ ps, ch.getLast? = some (.paragraph ps)
  · obtain ⟨ps, hps⟩ := hpara
    rw [appendChild_eq_para ch n ps hps]
    have hmem := mem_of_getLast?_eq hps
    rcases hinv with hinv | hinv
    · have := hinv _ hmem
      simp [paraFree] at this
    · right
      intro c hc
      rcases List.mem_append.mp hc with hc | hc
      · exact hinv c (List.dropLast_subset _ hc)
      · rw [List.mem_singleton.mp hc]
        obtain ⟨ps', hps', hall⟩ := hinv _ hmem
        have hpseq : ps = ps' := by
          injection hps'
        subst hpseq
        refine ⟨ps ++ [n], rfl, ?_⟩
        intro p hp
        rcases List.mem_append.mp hp with hp | hp
        · exact hall p hp
        · rw [List.mem_singleton.mp hp]
          exact hn
  · push_neg at hpara
    rw [appendChild_eq_other ch n hpara]
    have hall := rootInv_all_paraFree ch hinv hpara
    left
    intro c hc
    rcases List.mem_append.mp hc with hc | hc
    · exact hall c hc
    · rw [List.mem_singleton.mp hc]
      exact hn

theorem flushText_rootInv (ch : List MarkdownNode) (t : String)
    (hinv : RootInv ch) : RootInv (flushText ch t) := by
  rw [flushText]
  split
  · exact hinv
  · exact appendChild_rootInv ch (.text t) hinv rfl

theorem appendParsed_rootInv (ch : List MarkdownNode) (t : String) (n : MarkdownNode)
    (hinv : RootInv ch) (hn : paraFree n = true) : RootInv (appendParsed ch t n) :=
  appendChild_rootInv _ n (flushText_rootInv ch t hinv) hn

theorem promote_rootInv (ch : List MarkdownNode) (t : String)
    (hinv : RootInv ch) : RootInv (promote ch t) := by
  right
  intro c hc
  by_cases hpara : ∃ ps, ch.getLast? = some (.paragraph ps)
  · obtain ⟨ps, hps⟩ := hpara
    rw [promote_eq_para ch t ps hps] at hc
    have hmem := mem_of_getLast?_eq hps
    rcases hinv with hinv | hinv
    · have := hinv _ hmem
      simp [paraFree] at this
    · obtain ⟨ps', hps', hall⟩ := hinv _ hmem
      have hpseq : ps = ps' := by
        injection hps'
      subst hpseq
      rcases List.mem_append.mp hc with hc | hc
      · split at hc
        · exact hinv c hc
        · rcases List.mem_append.mp hc with hc | hc
          · exact hinv c (List.dropLast_subset _ hc)
          · rw [List.mem_singleton.mp hc]
            refine ⟨ps ++ [.text t], rfl, ?_⟩
            intro p hp
            rcases List.mem_append.mp hp with hp | hp
            · exact hall p hp
            · rw [List.mem_singleton.mp hp]
              rfl
      · rw [List.mem_singleton.mp hc]
        exact ⟨[], rfl, by simp⟩
  · push_neg at hpara
    rw [promote_eq_other ch t hpara] at hc
    have hall := rootInv_all_paraFree ch hinv hpara
    rcases List.mem_append.mp hc with hc | hc
    · split at hc
      · rw [List.mem_singleton.mp hc]
        exact ⟨ch, rfl, hall⟩
      · rw [List.mem_singleton.mp hc]
        refine ⟨ch ++ [.text t], rfl, ?_⟩
        intro p hp
        rcases List.mem_append.mp hp with hp | hp
        · exact hall p hp
        · rw [List.mem_singleton.mp hp]
          rfl
    · rw [List.mem_singleton.mp hc]
      exact ⟨[], rfl, by simp⟩

theorem rootInv_paraChildOK (l : List MarkdownNode) (hinv : RootInv l) :
    ∀ c ∈ l, paraChildOK c = true := by
  intro c hc
  rcases hinv with hinv | hinv
  · exact paraFree_paraChildOK c (hinv c hc)
  · obtain ⟨ps, rfl, hall⟩ := hinv c hc
    simpa [paraChildOK, paraFreeList_iff] using hall

theorem rootInv_dropLast (l : List MarkdownNode) (hinv : RootInv l) :
    RootInv l.dropLast := by
  rcases hinv with hinv | hinv
  · left
    intro c hc
    exact hinv c (List.dropLast_subset _ hc)
  · right
    intro c hc
    exact hinv c (List.dropLast_subset _ hc)

theorem paraChildOK_rootOK (n : MarkdownNode) (h : paraChildOK n = true) :
    rootOK n = true := by
  cases n
  case fragment ch => exact paraFree_rootOK _ (by simpa [paraChildOK] using h)
  all_goals simpa [rootOK, paraChildOK] using h

theorem finishParse_rootOK (ch : List MarkdownNode) (t : String)
    (hinv : RootInv ch) : rootOK (finishParse ch t) = true := by
  have h1 : RootInv (flushText ch t) := flushText_rootInv ch t hinv
  simp only [finishParse]
  generalize hl : flushText ch t = l at h1
  have h2 : RootInv (match l.getLast? with
      | some (.paragraph []) => l.dropLast
      | _ => l) := by
    split
    · exact rootInv_dropLast l h1
    · exact h1
  generalize hm : (match l.getLast? with
      | some (.paragraph []) => l.dropLast
      | _ => l) = l2 at h2
  have hok := rootInv_paraChildOK l2 h2
  rcases l2 with _ | ⟨a, _ | ⟨b, l3⟩⟩
  · rfl
  · exact paraChildOK_rootOK a (hok a (by simp))
  · simp only [rootOK, List.all_eq_true]
    exact hok

theorem parseNextLoop_rootOK : ∀ (fuel : Nat) (r : List Char)
    (ch : List MarkdownNode) (t : String) (n : MarkdownNode) (r' : List Char),
    RootInv ch → parseNextLoop "" fuel r ch t = some (n, r') → rootOK n = true := by
  intro fuel
  induction fuel using Nat.strong_induction_on with
  | _ fuel IH =>
    intro r ch t n r' hinv h
    rcases fuel with _ | f
    · simp [parseNextLoop] at h
    · rcases parseNextLoop_inv _ _ _ _ _ _ _ h with
        ⟨hr, hn, hr'⟩ | ⟨hne, hesc, hrec⟩ | ⟨hne, hesc, hbrk, hn, hr'⟩ |
        ⟨hne, hesc, hnbrk, hnp, hrec⟩ | ⟨hne, hesc, hnp, hfail, hrec⟩ |
        ⟨hne, hesc, hnp, node, r₂, hok, hrec⟩
      · subst hn
        exact finishParse_rootOK ch t hinv
      · exact IH f (by omega) _ _ _ _ _ hinv hrec
      · exact absurd rfl hbrk.1
      · rcases hrec with ⟨_, hrec⟩ | ⟨_, hrec⟩
        · exact IH f (by omega) _ _ _ _ _ (promote_rootInv ch t hinv) hrec
        · exact IH f (by omega) _ _ _ _ _ hinv hrec
      · exact IH f (by omega) _ _ _ _ _ hinv hrec
      · have hnf := (nested_paraFree f).2 _ _ _ hok
        exact IH f (by omega) _ _ _ _ _ (appendParsed_rootInv ch t node hinv hnf) hrec

/-- C4: in every tree returned by `parse`, a paragraph node never appears
nested inside another paragraph node, and paragraphs exist only as direct
children of the document root (never inside italic, bold, strike, or link
subtrees): the result satisfies `rootOK`, which allows paragraphs only at
depth one below the root (or as the collapsed root itself) and requires
their contents and all other subtrees to be paragraph-free. -/
theorem claim_C4_paragraph_invariant (s : String) (n : MarkdownNode)
    (h : parse s = some n) : rootOK n = true := by
  unfold parse at h
  rcases hloop : parseNextLoop "" (2 * s.length + 1) s.data [] "" with _ | ⟨m, rr⟩
  · rw [hloop] at h
    simp at h
  · rw [hloop] at h
    simp at h
    subst h
    exact parseNextLoop_rootOK _ _ _ _ _ _ (Or.inl (by simp)) hloop

/-- witness for C4 at the two-paragraph parse of `"a\n\nb"`. -/
theorem claim_C4_paragraph_invariant_witness :
    rootOK (.fragment [.paragraph [.text "a"], .paragraph [.text "b"]]) = true :=
  claim_C4_paragraph_invariant "a\n\nb"
    (.fragment [.paragraph [.text "a"], .paragraph [.text "b"]]) rfl
